import Mathlib

/-! Shallow embedding of `src/hocr/text.py` (archive-hocr-tools).

The upstream hOCR parser (`hocr_page_to_word_data`, `hocr_page_iterator`,
`hocr_page_get_dimensions`) is an external collaborator: it produces a
page / paragraph / line / word tree, modelled here by plain structures.
The streaming expat parser behind `PageFinder` is modelled by an explicit
list of XML events carrying the parser's current byte index.

Python strings are modelled by Lean `String`: Python `len(s)` on a `str`
counts code points, which matches `String.length`; the UTF-8 byte length
`len(s.encode('utf-8'))` matches `String.utf8ByteSize`.
-/

namespace HocrText

/-- A hOCR word as produced by the upstream parser: recognised text plus an
OCR confidence score (0-100). -/
structure Word where
  text : String
  confidence : Int
deriving DecidableEq

/-- A hOCR line: an ordered sequence of words. -/
structure Line where
  words : List Word
deriving DecidableEq

/-- A hOCR paragraph: an ordered sequence of lines. -/
structure Paragraph where
  lines : List Line
deriving DecidableEq

/-- A hOCR page: dimensions from `hocr_page_get_dimensions` plus the
paragraph tree from `hocr_page_to_word_data(_fast)`. -/
structure Page where
  width : Nat
  height : Nat
  paragraphs : List Paragraph
deriving DecidableEq

/-- `MIN_WORD_CONF = 75` (src/hocr/text.py line 7). -/
def MIN_WORD_CONF : Int := 75

/-- The confidence filter shared by all text functions: the code skips a
word when `word['confidence'] < MIN_WORD_CONF`, so a word passes when
that comparison is false. -/
def wordPasses (w : Word) : Bool :=
  !(decide (w.confidence < MIN_WORD_CONF))

/-- Python's `str.strip()` whitespace test, restricted to the ASCII
whitespace characters that can occur here. -/
def pyIsSpace (c : Char) : Bool :=
  c = ' ' || c = '\t' || c = '\n' || c = '\r' || c = '\x0b' || c = '\x0c'

/-- Python `str.strip()`: drop leading and trailing whitespace. -/
def pyStrip (s : String) : String :=
  ⟨(s.data.dropWhile pyIsSpace).reverse.dropWhile pyIsSpace |>.reverse⟩

/-- The body of the inner word loop shared by `hocr_page_text` and
`hocr_paragraph_text`: skip the word when `word['confidence'] <
MIN_WORD_CONF`, otherwise `line_words += word['text'] + ' '`. -/
def wstep (acc : String) (w : Word) : String :=
  if w.confidence < MIN_WORD_CONF then acc else acc ++ w.text ++ " "

/-- The inner word loop shared by `hocr_page_text` and
`hocr_paragraph_text`: the value of `line_words` after the word loop. -/
def lineRaw (line : Line) : String :=
  line.words.foldl wstep ""

/-- `block_data` in `hocr_page_text`: true iff some word of some line of
the paragraph passed the confidence filter. -/
def paragraphHasContent (p : Paragraph) : Bool :=
  p.lines.any (fun line => line.words.any wordPasses)

/-- The body of the line loop of `hocr_page_text`: strip the accumulated
`line_words` (the `encode`/`decode` round trip is the identity on text)
and write out `' ' + line_words` when non-empty. -/
def lstep (acc : String) (line : Line) : String :=
  let lw := pyStrip (lineRaw line)
  if lw ≠ "" then acc ++ " " ++ lw else acc

/-- One iteration of the paragraph loop of `hocr_page_text`: the line
loop followed by `text += '\n'` when `block_data` is set. -/
def paragraphPageText (p : Paragraph) : String :=
  p.lines.foldl lstep "" ++ (if paragraphHasContent p then "\n" else "")

/-- `hocr_page_text` (src/hocr/text.py lines 10-43). -/
def hocr_page_text (page : Page) : String :=
  page.paragraphs.foldl (fun acc p => acc ++ paragraphPageText p) ""

/-- The body of the line loop of `hocr_paragraph_text`:
`data += line_words` (no strip, no newline) and `block_data` is latched
when some word of the line passed the filter. -/
def pstep (acc : String × Bool) (line : Line) : String × Bool :=
  (acc.1 ++ lineRaw line, acc.2 || line.words.any wordPasses)

/-- `hocr_paragraph_text` (src/hocr/text.py lines 96-124): returns the
raw concatenation of the per-line word runs and the `block_data` flag. -/
def hocr_paragraph_text (p : Paragraph) : String × Bool :=
  p.lines.foldl pstep ("", false)

/-- `get_hocr_words` (src/hocr/text.py lines 127-146). -/
def get_hocr_words (p : Paragraph) : List Word :=
  p.lines.foldl (fun acc line => acc ++ line.words.filter wordPasses) []

/-- A tuple yielded by `hocr_paragraphs`:
`(paragraph, ptext, page_no, page_width, page_height)`. -/
abbrev PTuple := Paragraph × String × Nat × Nat × Nat

/-- The merged-paragraph construction of `hocr_paragraphs` lines 79-87:
`ps.append(paragraph)` followed by `new_paragraph['lines']` collecting
every pending paragraph's lines. -/
def mergePending (ps : List Paragraph) (cur : Paragraph) : Paragraph :=
  ⟨((ps ++ [cur]).map Paragraph.lines).flatten⟩

/-- The inner paragraph loop of `hocr_paragraphs` for one page, carrying
the `text` and `ps` accumulators; returns the tuples yielded on this page
together with the accumulator state left for the next page. -/
def hocrParagraphsPage (pageNo width height : Nat) (text : String)
    (ps : List Paragraph) : List Paragraph → List PTuple × (String × List Paragraph)
  | [] => ([], (text, ps))
  | para :: rest =>
    let pr := hocr_paragraph_text para
    if pr.2 then
      let r := hocrParagraphsPage pageNo width height "" [] rest
      ((if ps = [] then para else mergePending ps para, pr.1, pageNo, width, height) :: r.1,
       r.2)
    else
      hocrParagraphsPage pageNo width height (text ++ pr.1) (ps ++ [para]) rest

/-- The page loop of `hocr_paragraphs`: pending state flows from page to
page, `page_no` is incremented after each page, and pending paragraphs
left at end of document are dropped. -/
def hocrParagraphsGo (pageNo : Nat) (text : String) (ps : List Paragraph) :
    List Page → List PTuple
  | [] => []
  | page :: rest =>
    let r := hocrParagraphsPage pageNo page.width page.height text ps page.paragraphs
    r.1 ++ hocrParagraphsGo (pageNo + 1) r.2.1 r.2.2 rest

/-- `hocr_paragraphs` (src/hocr/text.py lines 46-93), with the lazy
generator materialised as the list of yielded tuples. -/
def hocr_paragraphs (pages : List Page) : List PTuple :=
  hocrParagraphsGo 0 "" [] pages

/-- An event of the streaming expat parse, carrying
`parser.CurrentByteIndex` at the moment the handler fires. -/
inductive XmlEvent where
  | startElement (name : String) (attrs : List (String × String)) (byteIndex : Nat)
  | endElement (name : String) (byteIndex : Nat)
deriving DecidableEq

/-- Python `'class' in attrs and attrs['class'] == ...`: look the key up
in the attribute mapping. -/
def attrLookup (attrs : List (String × String)) (key : String) : Option String :=
  (attrs.find? (fun kv => kv.1 = key)).map Prod.snd

/-- `PageFinder.start_element`: does this event record a marker? -/
def isPageStart : XmlEvent → Bool
  | .startElement name attrs _ =>
      name = "div" && attrLookup attrs "class" = some "ocr_page"
  | .endElement _ _ => false

/-- `PageFinder.end_element`: does this event record a marker? -/
def isBodyEnd : XmlEvent → Bool
  | .startElement _ _ _ => false
  | .endElement name _ => name = "body"

/-- The byte index carried by an event. -/
def eventIndex : XmlEvent → Nat
  | .startElement _ _ idx => idx
  | .endElement _ idx => idx

/-- One expat callback of `PageFinder` (src/hocr/text.py lines 151-165):
append `CurrentByteIndex` to `page_bytes` on the start of a
`div class="ocr_page"` and on the end of `body`. -/
def pageFinderStep (acc : List Nat) (ev : XmlEvent) : List Nat :=
  if isPageStart ev || isBodyEnd ev then acc ++ [eventIndex ev] else acc

/-- `PageFinder.page_bytes` after the whole parse. -/
def pageFinderBytes (events : List XmlEvent) : List Nat :=
  events.foldl pageFinderStep []

/-- `hocr_get_xml_page_offsets` (src/hocr/text.py lines 168-191):
`zip(page_bytes[:-1], page_bytes[1:])`. -/
def hocr_get_xml_page_offsets (events : List XmlEvent) : List (Nat × Nat) :=
  (pageFinderBytes events).dropLast.zip (pageFinderBytes events).tail

/-- The `page_bytes` list of `hocr_get_plaintext_page_offsets` after the
initial `0`: the running cursor advanced by Python `len(page_text)` —
the character count of the page text — recorded after every page. -/
def plaintextCursors : List Page → Nat → List Nat
  | [], _ => []
  | page :: rest, cursor =>
    let c := cursor + (hocr_page_text page).length
    c :: plaintextCursors rest c

/-- `hocr_get_plaintext_page_offsets` (src/hocr/text.py lines 194-224):
`zip(page_bytes[:-1], page_bytes[1:])` over `0` followed by the running
cursor values. -/
def hocr_get_plaintext_page_offsets (pages : List Page) : List (Nat × Nat) :=
  let pb := 0 :: plaintextCursors pages 0
  pb.dropLast.zip pb.tail

/-- Remove the words rejected by the confidence filter from a line
(used to state that low-confidence words never contribute to output). -/
def filterLine (l : Line) : Line :=
  ⟨l.words.filter wordPasses⟩

/-- Remove the words rejected by the confidence filter from a paragraph. -/
def filterParagraph (p : Paragraph) : Paragraph :=
  ⟨p.lines.map filterLine⟩

/-- Remove the words rejected by the confidence filter from a page. -/
def filterPage (pg : Page) : Page :=
  ⟨pg.width, pg.height, pg.paragraphs.map filterParagraph⟩

/-- The non-paragraph components of a yielded tuple:
`(ptext, page_no, page_width, page_height)`. -/
def tupleData (t : PTuple) : String × Nat × Nat × Nat :=
  t.2

/-- Fixture for the byte-versus-character cursor question: one page whose
only word is `café` (4 code points, 5 UTF-8 bytes) at confidence 100. -/
def cafePage : Page :=
  ⟨1275, 1650, [⟨[⟨[⟨"café", 100⟩]⟩]⟩]⟩

/-- Fixture paragraph P1 with content `Hello` at confidence 90. -/
def P1 : Paragraph := ⟨[⟨[⟨"Hello", 90⟩]⟩]⟩

/-- Fixture paragraph P2 whose only word is below the threshold. -/
def P2 : Paragraph := ⟨[⟨[⟨"smudge", 40⟩]⟩]⟩

/-- Fixture paragraph P3 with content `World` at confidence 90. -/
def P3 : Paragraph := ⟨[⟨[⟨"World", 90⟩]⟩]⟩

/-- Fixture document: one page holding P1, P2, P3 in order. -/
def helloWorldDoc : List Page :=
  [⟨1000, 1500, [P1, P2, P3]⟩]

/-- Fixture event stream: two `ocr_page` divs inside a body, with other
elements interleaved. -/
def demoEvents : List XmlEvent :=
  [.startElement "html" [] 0,
   .startElement "body" [] 10,
   .startElement "div" [("class", "ocr_page")] 20,
   .startElement "span" [] 30,
   .endElement "span" 40,
   .startElement "div" [("class", "ocr_page")] 50,
   .endElement "body" 90,
   .endElement "html" 95]

/-- Fixture event stream with a body but no `ocr_page` div. -/
def noPageEvents : List XmlEvent :=
  [.startElement "html" [] 0,
   .startElement "body" [] 5,
   .endElement "body" 30,
   .endElement "html" 35]

/-- Fixture zero-content paragraph for the cross-page merge scenario. -/
def zPend : Paragraph := ⟨[⟨[⟨"low", 10⟩]⟩]⟩

/-- Fixture content paragraph for the cross-page merge scenario. -/
def cMain : Paragraph := ⟨[⟨[⟨"hi", 99⟩]⟩]⟩

/-! Helper lemmas about strings and the word/line folds. -/

lemma str_append_eq_empty (s t : String) : s ++ t = "" ↔ s = "" ∧ t = "" := by
  constructor
  · intro h
    have hd : s.data ++ t.data = [] := by
      rw [← String.data_append, h]
    rcases List.append_eq_nil.mp hd with ⟨hs, ht⟩
    exact ⟨String.ext (hs.trans rfl), String.ext (ht.trans rfl)⟩
  · rintro ⟨rfl, rfl⟩
    rfl

lemma str_space_ne_empty : (" " : String) ≠ "" := by decide

lemma str_newline_ne_empty : ("\n" : String) ≠ "" := by decide

lemma str_append_right_ne (s t : String) (ht : t ≠ "") : s ++ t ≠ "" :=
  fun h => ht ((str_append_eq_empty s t).mp h).2

lemma wstep_foldl_acc (ws : List Word) (acc : String) :
    ws.foldl wstep acc = acc ++ ws.foldl wstep "" := by
  induction ws generalizing acc with
  | nil => simp [String.append_empty]
  | cons w ws ih =>
    simp only [List.foldl_cons]
    rw [ih (wstep acc w), ih (wstep "" w)]
    unfold wstep
    by_cases h : w.confidence < MIN_WORD_CONF
    · simp [h]
    · simp [h, String.append_assoc, String.empty_append]

lemma lineRaw_cons (w : Word) (ws : List Word) :
    lineRaw ⟨w :: ws⟩ = wstep "" w ++ lineRaw ⟨ws⟩ := by
  unfold lineRaw
  simp only [List.foldl_cons]
  exact wstep_foldl_acc ws (wstep "" w)

lemma lineRaw_eq_empty (l : Line) :
    lineRaw l = "" ↔ l.words.any wordPasses = false := by
  obtain ⟨ws⟩ := l
  induction ws with
  | nil => simp [lineRaw]
  | cons w ws ih =>
    rw [lineRaw_cons, str_append_eq_empty, ih]
    unfold wstep wordPasses
    by_cases h : w.confidence < MIN_WORD_CONF
    · simp [h]
    · simp [h, str_append_eq_empty, str_space_ne_empty]

lemma pstep_foldl_acc (ls : List Line) (a : String) (b : Bool) :
    ls.foldl pstep (a, b) =
      (a ++ (ls.foldl pstep ("", false)).1, b || (ls.foldl pstep ("", false)).2) := by
  induction ls generalizing a b with
  | nil => simp [String.append_empty]
  | cons l ls ih =>
    simp only [List.foldl_cons]
    rw [show pstep (a, b) l = (a ++ lineRaw l, b || l.words.any wordPasses) from rfl,
        show pstep ("", false) l = ("" ++ lineRaw l, false || l.words.any wordPasses) from rfl,
        ih, ih ("" ++ lineRaw l)]
    simp [String.append_assoc, String.empty_append, Bool.or_assoc]

lemma paragraph_text_cons (l : Line) (ls : List Line) :
    hocr_paragraph_text ⟨l :: ls⟩ =
      (lineRaw l ++ (hocr_paragraph_text ⟨ls⟩).1,
       l.words.any wordPasses || (hocr_paragraph_text ⟨ls⟩).2) := by
  unfold hocr_paragraph_text
  simp only [List.foldl_cons]
  rw [show pstep ("", false) l = ("" ++ lineRaw l, false || l.words.any wordPasses) from rfl]
  rw [pstep_foldl_acc]
  simp [String.empty_append]

lemma paragraph_text_empty_iff (p : Paragraph) :
    (hocr_paragraph_text p).1 = "" ↔ (hocr_paragraph_text p).2 = false := by
  obtain ⟨ls⟩ := p
  induction ls with
  | nil => simp [hocr_paragraph_text]
  | cons l ls ih =>
    rw [paragraph_text_cons]
    simp only
    rw [str_append_eq_empty, lineRaw_eq_empty, ih]
    simp [Bool.or_eq_false_iff]

lemma paragraph_text_false_empty (p : Paragraph)
    (h : (hocr_paragraph_text p).2 = false) : (hocr_paragraph_text p).1 = "" :=
  (paragraph_text_empty_iff p).mpr h

/-! Claim theorems. -/

/-- C1: the plaintext offset indexer's cursor at the `café` fixture: the
code advances the cursor by `len(page_text)` — the character count 6 —
and records `(0, 6)`, while the UTF-8 serialization of the page text is
7 bytes long, so the recorded pair does not measure byte positions in
the serialized plaintext. -/
theorem C1_plaintext_cursor_counts_chars :
    hocr_get_plaintext_page_offsets [cafePage] = [(0, 6)] ∧
    (hocr_page_text cafePage).length = 6 ∧
    (hocr_page_text cafePage).utf8ByteSize = 7 := by
  refine ⟨by decide, by decide, ?_⟩
  decide

/-- C2 counterexample: on the one-page fixture P1 (`Hello`), P2 (below
threshold), P3 (`World`), `hocr_paragraphs` yields two tuples, not one:
P1 is emitted on its own, and the merged second tuple collects only P2's
and P3's lines, with text `"World "` (trailing space), not `"World"`. -/
theorem C2_run_emits_two_tuples :
    hocr_paragraphs helloWorldDoc =
      [(P1, "Hello ", 0, 1000, 1500),
       (⟨P2.lines ++ P3.lines⟩, "World ", 0, 1000, 1500)] ∧
    (hocr_paragraphs helloWorldDoc).length ≠ 1 := by
  exact ⟨by decide, by decide⟩

/-- C2 (amended): for the run P1 (`Hello`), P2 (below threshold), P3
(`World`), `hocr_paragraphs` emits exactly two tuples: first P1 alone
with text `"Hello "`, then one merged paragraph whose lines are
P2.lines ++ P3.lines with text `"World "`; P1's lines are not merged
because P1 was emitted before P2 was pending. -/
theorem C2_amended_merge_grouping :
    (hocr_paragraphs helloWorldDoc).length = 2 ∧
    (hocr_paragraphs helloWorldDoc)[0]? = some (P1, "Hello ", 0, 1000, 1500) ∧
    (hocr_paragraphs helloWorldDoc)[1]? =
      some (⟨P2.lines ++ P3.lines⟩, "World ", 0, 1000, 1500) := by
  exact ⟨by decide, by decide, by decide⟩

/-- C3: the confidence filter shared by `hocr_page_text`,
`hocr_paragraph_text` and `get_hocr_words` includes a word with
confidence exactly 75 and excludes one with confidence 74. -/
theorem C3_confidence_boundary (a b : Word)
    (ha : a.confidence = 75) (hb : b.confidence = 74) :
    wordPasses a = true ∧ wordPasses b = false ∧
    get_hocr_words ⟨[⟨[a]⟩]⟩ = [a] ∧ get_hocr_words ⟨[⟨[b]⟩]⟩ = [] ∧
    hocr_paragraph_text ⟨[⟨[a]⟩]⟩ = (a.text ++ " ", true) ∧
    hocr_paragraph_text ⟨[⟨[b]⟩]⟩ = ("", false) ∧
    hocr_page_text ⟨0, 0, [⟨[⟨[a]⟩]⟩]⟩ ≠ "" ∧
    hocr_page_text ⟨0, 0, [⟨[⟨[b]⟩]⟩]⟩ = "" := by
  have hpa : wordPasses a = true := by
    simp [wordPasses, MIN_WORD_CONF, ha]
  have hpb : wordPasses b = false := by
    simp [wordPasses, MIN_WORD_CONF, hb]
  have hlta : ¬ (a.confidence < MIN_WORD_CONF) := by
    simp [MIN_WORD_CONF, ha]
  have hltb : b.confidence < MIN_WORD_CONF := by
    simp [MIN_WORD_CONF, hb]
  refine ⟨hpa, hpb, ?_, ?_, ?_, ?_, ?_, ?_⟩
  · simp [get_hocr_words, List.filter, hpa]
  · simp [get_hocr_words, List.filter, hpb]
  · simp [hocr_paragraph_text, pstep, lineRaw, wstep, hlta, hpa,
      String.empty_append]
  · simp [hocr_paragraph_text, pstep, lineRaw, wstep, hltb, hpb,
      String.empty_append]
  · have hpc : paragraphHasContent ⟨[⟨[a]⟩]⟩ = true := by
      simp [paragraphHasContent, hpa]
    have hpage : hocr_page_text ⟨0, 0, [⟨[⟨[a]⟩]⟩]⟩ =
        paragraphPageText ⟨[⟨[a]⟩]⟩ := by
      simp [hocr_page_text, String.empty_append]
    rw [hpage]
    unfold paragraphPageText
    rw [hpc]
    simp only [if_true]
    exact str_append_right_ne _ _ str_newline_ne_empty
  · have hpc : paragraphHasContent ⟨[⟨[b]⟩]⟩ = false := by
      simp [paragraphHasContent, hpb]
    simp [hocr_page_text, paragraphPageText, lstep, lineRaw, wstep, hltb,
      hpc, pyStrip, String.empty_append]

/-- C3 witness: the boundary facts at the concrete words `("x", 75)` and
`("y", 74)`. -/
theorem C3_confidence_boundary_witness :
    wordPasses ⟨"x", 75⟩ = true ∧ wordPasses ⟨"y", 74⟩ = false :=
  ⟨(C3_confidence_boundary ⟨"x", 75⟩ ⟨"y", 74⟩ rfl rfl).1,
   (C3_confidence_boundary ⟨"x", 75⟩ ⟨"y", 74⟩ rfl rfl).2.1⟩

/-- C9: `hocr_paragraph_text` reports `hasContent = true` exactly when
the returned text is non-empty, and a paragraph flagged for merging
(`hasContent = false`) always has empty text, so the `text` accumulator
of `hocr_paragraphs` never receives content from pending paragraphs. -/
theorem C9_hasContent_iff_text_nonempty (p : Paragraph) :
    ((hocr_paragraph_text p).2 = true ↔ (hocr_paragraph_text p).1 ≠ "") ∧
    ((hocr_paragraph_text p).2 = false → (hocr_paragraph_text p).1 = "") := by
  constructor
  · rw [Ne, paragraph_text_empty_iff]
    cases h : (hocr_paragraph_text p).2 <;> simp [h]
  · exact fun h => (paragraph_text_empty_iff p).mpr h

/-- C9 witness: the below-threshold fixture paragraph P2 is flagged for
merging and indeed carries empty text. -/
theorem C9_hasContent_iff_text_nonempty_witness :
    (hocr_paragraph_text P2).1 = "" :=
  (C9_hasContent_iff_text_nonempty P2).2 rfl

lemma foldl_pageFinderStep (events : List XmlEvent) (acc : List Nat) :
    events.foldl pageFinderStep acc =
      acc ++ (events.filter (fun ev => isPageStart ev || isBodyEnd ev)).map eventIndex := by
  induction events generalizing acc with
  | nil => simp
  | cons ev es ih =>
    simp only [List.foldl_cons, pageFinderStep]
    by_cases h : (isPageStart ev || isBodyEnd ev) = true
    · rw [if_pos h, ih]
      simp [List.filter_cons, h, List.append_assoc]
    · rw [if_neg h, ih]
      have h' : ¬(isPageStart ev = true ∨ isBodyEnd ev = true) := by
        simpa using h
      simp [List.filter_cons, h']

/-- C5: `PageFinder` records the parser's byte index exactly at each
start of a `div` with class `ocr_page` and at each end of `body`, in
document order, and `hocr_get_xml_page_offsets` pairs consecutive
markers: when the markers are the page starts `ss` followed by the
body-close marker `e`, page `i` runs from `ss[i]` to `ss[i+1]`, and the
last page ends at `e`. -/
theorem C5_xml_offsets_pairing (events : List XmlEvent) (ss : List Nat) (e : Nat)
    (h : pageFinderBytes events = ss ++ [e]) :
    pageFinderBytes events =
      (events.filter (fun ev => isPageStart ev || isBodyEnd ev)).map eventIndex ∧
    hocr_get_xml_page_offsets events = ss.zip (ss.tail ++ [e]) ∧
    (hocr_get_xml_page_offsets events).length = ss.length := by
  have hchar : pageFinderBytes events =
      (events.filter (fun ev => isPageStart ev || isBodyEnd ev)).map eventIndex := by
    have := foldl_pageFinderStep events []
    simpa [pageFinderBytes] using this
  have hzip : hocr_get_xml_page_offsets events = ss.zip (ss.tail ++ [e]) := by
    unfold hocr_get_xml_page_offsets
    rw [h]
    cases ss with
    | nil => rfl
    | cons a as =>
      have h1 : ((a :: as) ++ [e]).dropLast = a :: as := List.dropLast_concat ..
      have h2 : ((a :: as) ++ [e]).tail = as ++ [e] := rfl
      rw [h1, h2]
      rfl
  refine ⟨hchar, hzip, ?_⟩
  rw [hzip]
  cases ss with
  | nil => rfl
  | cons a as => simp [List.length_zip]

/-- C5 witness: on the two-page fixture event stream the markers are the
two `ocr_page` starts and the body close, paired as claimed. -/
theorem C5_xml_offsets_pairing_witness :
    pageFinderBytes demoEvents =
      (demoEvents.filter (fun ev => isPageStart ev || isBodyEnd ev)).map eventIndex ∧
    hocr_get_xml_page_offsets demoEvents = [20, 50].zip ([20, 50].tail ++ [90]) ∧
    (hocr_get_xml_page_offsets demoEvents).length = [20, 50].length :=
  C5_xml_offsets_pairing demoEvents [20, 50] 90 (by decide)

/-- C6: the plaintext page offsets are contiguous and start at zero:
the list of start positions equals `0` followed by all end positions
but the last (so pair `i`'s end is pair `i+1`'s start), and on a
non-empty document the first pair starts at `0`. -/
theorem C6_plaintext_offsets_contiguous (pages : List Page) :
    (hocr_get_plaintext_page_offsets pages).map Prod.fst =
      ((0 : Nat) :: (hocr_get_plaintext_page_offsets pages).map Prod.snd).dropLast ∧
    (hocr_get_plaintext_page_offsets pages).head?.map Prod.fst =
      (if pages = [] then none else some 0) := by
  constructor
  · have hlen : (0 :: plaintextCursors pages 0).dropLast.length ≤
        (0 :: plaintextCursors pages 0).tail.length := by
      simp [List.length_dropLast, List.length_tail]
    have hfst : (hocr_get_plaintext_page_offsets pages).map Prod.fst =
        (0 :: plaintextCursors pages 0).dropLast :=
      List.map_fst_zip _ _ hlen
    have hlen2 : (0 :: plaintextCursors pages 0).tail.length ≤
        (0 :: plaintextCursors pages 0).dropLast.length := by
      simp [List.length_dropLast, List.length_tail]
    have hsnd : (hocr_get_plaintext_page_offsets pages).map Prod.snd =
        (0 :: plaintextCursors pages 0).tail :=
      List.map_snd_zip _ _ hlen2
    rw [hfst, hsnd]
    rfl
  · cases pages with
    | nil => rfl
    | cons p ps =>
      simp [hocr_get_plaintext_page_offsets, plaintextCursors]

/-- C7: with fewer than two recorded markers the XML indexer returns the
empty list rather than raising, and on a zero-page document the
plaintext indexer returns the empty list as well. -/
theorem C7_short_marker_lists (events : List XmlEvent)
    (h : (pageFinderBytes events).length < 2) :
    hocr_get_xml_page_offsets events = [] ∧
    hocr_get_plaintext_page_offsets ([] : List Page) = [] := by
  refine ⟨?_, rfl⟩
  unfold hocr_get_xml_page_offsets
  cases hme : pageFinderBytes events with
  | nil => rfl
  | cons a rest =>
    cases rest with
    | nil => rfl
    | cons b t =>
      rw [hme] at h
      simp only [List.length_cons] at h
      exact absurd h (by omega)

/-- C7 witness: the fixture event stream with a body but no pages yields
one marker, hence an empty offset list, and the empty page list yields
an empty plaintext offset list. -/
theorem C7_short_marker_lists_witness :
    hocr_get_xml_page_offsets noPageEvents = [] ∧
    hocr_get_plaintext_page_offsets ([] : List Page) = [] :=
  C7_short_marker_lists noPageEvents (by decide)

/-! Helper lemmas: dropping the filtered-out words changes no output. -/

lemma wordPasses_false_iff (w : Word) :
    wordPasses w = false ↔ w.confidence < MIN_WORD_CONF := by
  simp [wordPasses]

lemma lineRaw_filter (l : Line) : lineRaw (filterLine l) = lineRaw l := by
  obtain ⟨ws⟩ := l
  induction ws with
  | nil => rfl
  | cons w ws ih =>
    have hf : filterLine ⟨w :: ws⟩ = ⟨List.filter wordPasses (w :: ws)⟩ := rfl
    rw [hf, List.filter_cons]
    by_cases hp : wordPasses w = true
    · rw [if_pos (by simp [hp]), lineRaw_cons, lineRaw_cons]
      have ih' : lineRaw ⟨List.filter wordPasses ws⟩ = lineRaw ⟨ws⟩ := ih
      rw [ih']
    · have hfalse : wordPasses w = false := by simpa using hp
      have hlt : w.confidence < MIN_WORD_CONF := (wordPasses_false_iff w).mp hfalse
      rw [if_neg (by simp [hfalse])]
      have ih' : lineRaw ⟨List.filter wordPasses ws⟩ = lineRaw ⟨ws⟩ := ih
      rw [ih', lineRaw_cons]
      unfold wstep
      rw [if_pos hlt, String.empty_append]

lemma lineAny_filter (l : Line) :
    (filterLine l).words.any wordPasses = l.words.any wordPasses := by
  obtain ⟨ws⟩ := l
  induction ws with
  | nil => rfl
  | cons w ws ih =>
    have ih' : (List.filter wordPasses ws).any wordPasses = ws.any wordPasses := ih
    show (List.filter wordPasses (w :: ws)).any wordPasses = (w :: ws).any wordPasses
    rw [List.filter_cons]
    by_cases hp : wordPasses w = true
    · rw [if_pos (by simp [hp])]
      simp [List.any_cons, hp, ih']
    · rw [if_neg (by simp [Bool.eq_false_iff.mpr hp])]
      simp [List.any_cons, Bool.eq_false_iff.mpr hp, ih']

lemma paragraph_text_filter (p : Paragraph) :
    hocr_paragraph_text (filterParagraph p) = hocr_paragraph_text p := by
  obtain ⟨ls⟩ := p
  induction ls with
  | nil => rfl
  | cons l ls ih =>
    have hf : filterParagraph ⟨l :: ls⟩ = ⟨filterLine l :: ls.map filterLine⟩ := rfl
    have ih' : hocr_paragraph_text ⟨ls.map filterLine⟩ = hocr_paragraph_text ⟨ls⟩ := ih
    rw [hf, paragraph_text_cons, paragraph_text_cons, ih', lineRaw_filter,
        lineAny_filter]

lemma paragraphHasContent_filter (p : Paragraph) :
    paragraphHasContent (filterParagraph p) = paragraphHasContent p := by
  show (p.lines.map filterLine).any (fun line => line.words.any wordPasses) =
    p.lines.any fun line => line.words.any wordPasses
  rw [List.any_map]
  have : ((fun line => line.words.any wordPasses) ∘ filterLine) =
      fun line => line.words.any wordPasses := by
    funext line
    exact lineAny_filter line
  rw [this]

lemma paragraphPageText_filter (p : Paragraph) :
    paragraphPageText (filterParagraph p) = paragraphPageText p := by
  unfold paragraphPageText
  rw [paragraphHasContent_filter]
  have hstep : (fun acc line => lstep acc (filterLine line)) = lstep := by
    funext acc line
    simp [lstep, lineRaw_filter]
  have : (filterParagraph p).lines.foldl lstep "" = p.lines.foldl lstep "" := by
    show (p.lines.map filterLine).foldl lstep "" = p.lines.foldl lstep ""
    rw [List.foldl_map, hstep]
  rw [this]

lemma hocr_page_text_filter (pg : Page) :
    hocr_page_text (filterPage pg) = hocr_page_text pg := by
  unfold hocr_page_text
  have hstep : (fun (acc : String) p => acc ++ paragraphPageText (filterParagraph p)) =
      fun acc p => acc ++ paragraphPageText p := by
    funext acc p
    rw [paragraphPageText_filter]
  show (pg.paragraphs.map filterParagraph).foldl (fun acc p => acc ++ paragraphPageText p) "" =
    pg.paragraphs.foldl (fun acc p => acc ++ paragraphPageText p) ""
  rw [List.foldl_map, hstep]

lemma ghw_foldl_acc (ls : List Line) (acc : List Word) :
    ls.foldl (fun a line => a ++ line.words.filter wordPasses) acc =
      acc ++ ls.foldl (fun a line => a ++ line.words.filter wordPasses) [] := by
  induction ls generalizing acc with
  | nil => simp
  | cons l ls ih =>
    simp only [List.foldl_cons]
    rw [ih (acc ++ l.words.filter wordPasses), ih ([] ++ l.words.filter wordPasses)]
    simp [List.append_assoc]

lemma get_hocr_words_cons (l : Line) (ls : List Line) :
    get_hocr_words ⟨l :: ls⟩ = l.words.filter wordPasses ++ get_hocr_words ⟨ls⟩ := by
  unfold get_hocr_words
  simp only [List.foldl_cons]
  rw [ghw_foldl_acc]
  simp

lemma get_hocr_words_passes (p : Paragraph) :
    ∀ w ∈ get_hocr_words p, wordPasses w = true := by
  obtain ⟨ls⟩ := p
  induction ls with
  | nil => intro w hw; simp [get_hocr_words] at hw
  | cons l ls ih =>
    intro w hw
    rw [get_hocr_words_cons] at hw
    rcases List.mem_append.mp hw with hw | hw
    · exact (List.mem_filter.mp hw).2
    · exact ih w hw

lemma get_hocr_words_filter (p : Paragraph) :
    get_hocr_words (filterParagraph p) = get_hocr_words p := by
  obtain ⟨ls⟩ := p
  induction ls with
  | nil => rfl
  | cons l ls ih =>
    have hf : filterParagraph ⟨l :: ls⟩ = ⟨filterLine l :: ls.map filterLine⟩ := rfl
    have ih' : get_hocr_words ⟨ls.map filterLine⟩ = get_hocr_words ⟨ls⟩ := ih
    rw [hf, get_hocr_words_cons, get_hocr_words_cons, ih']
    have : (filterLine l).words.filter wordPasses = l.words.filter wordPasses := by
      show (l.words.filter wordPasses).filter wordPasses = l.words.filter wordPasses
      rw [List.filter_filter]
      simp
    rw [this]

lemma page_eq_cons_true {para : Paragraph} (n w h : Nat) (text : String)
    (ps : List Paragraph) (rest : List Paragraph)
    (hok : (hocr_paragraph_text para).2 = true) :
    hocrParagraphsPage n w h text ps (para :: rest) =
      ((if ps = [] then para else mergePending ps para,
        (hocr_paragraph_text para).1, n, w, h) ::
          (hocrParagraphsPage n w h "" [] rest).1,
       (hocrParagraphsPage n w h "" [] rest).2) := by
  simp only [hocrParagraphsPage, hok, if_true]

lemma page_eq_cons_false {para : Paragraph} (n w h : Nat) (text : String)
    (ps : List Paragraph) (rest : List Paragraph)
    (hok : (hocr_paragraph_text para).2 = false) :
    hocrParagraphsPage n w h text ps (para :: rest) =
      hocrParagraphsPage n w h (text ++ (hocr_paragraph_text para).1)
        (ps ++ [para]) rest := by
  simp only [hocrParagraphsPage, hok, Bool.false_eq_true, if_false]

lemma page_filter_proj (n w h : Nat) (l : List Paragraph) :
    ∀ (text : String) (ps : List Paragraph),
      (hocrParagraphsPage n w h text (ps.map filterParagraph)
          (l.map filterParagraph)).1.map tupleData =
        (hocrParagraphsPage n w h text ps l).1.map tupleData ∧
      (hocrParagraphsPage n w h text (ps.map filterParagraph)
          (l.map filterParagraph)).2.1 =
        (hocrParagraphsPage n w h text ps l).2.1 ∧
      (hocrParagraphsPage n w h text (ps.map filterParagraph)
          (l.map filterParagraph)).2.2 =
        (hocrParagraphsPage n w h text ps l).2.2.map filterParagraph := by
  induction l with
  | nil => intro text ps; exact ⟨rfl, rfl, rfl⟩
  | cons para rest ih =>
    intro text ps
    have hmapcons : (para :: rest).map filterParagraph =
        filterParagraph para :: rest.map filterParagraph := rfl
    cases hok : (hocr_paragraph_text para).2 with
    | true =>
      have hok' : (hocr_paragraph_text (filterParagraph para)).2 = true := by
        rw [paragraph_text_filter]; exact hok
      rw [hmapcons, page_eq_cons_true n w h text (ps.map filterParagraph) _ hok',
          page_eq_cons_true n w h text ps rest hok]
      obtain ⟨h1, h2, h3⟩ := ih "" []
      simp only [List.map_nil] at h1 h2 h3
      refine ⟨?_, h2, h3⟩
      simp only [List.map_cons, h1, tupleData, paragraph_text_filter]
    | false =>
      have hok' : (hocr_paragraph_text (filterParagraph para)).2 = false := by
        rw [paragraph_text_filter]; exact hok
      rw [hmapcons, page_eq_cons_false n w h text (ps.map filterParagraph) _ hok',
          page_eq_cons_false n w h text ps rest hok]
      rw [paragraph_text_filter]
      have hps : ps.map filterParagraph ++ [filterParagraph para] =
          (ps ++ [para]).map filterParagraph := by
        simp
      rw [hps]
      exact ih (text ++ (hocr_paragraph_text para).1) (ps ++ [para])

lemma go_filter_proj (pages : List Page) :
    ∀ (n : Nat) (text : String) (ps : List Paragraph),
      (hocrParagraphsGo n text (ps.map filterParagraph)
          (pages.map filterPage)).map tupleData =
        (hocrParagraphsGo n text ps pages).map tupleData := by
  induction pages with
  | nil => intro n text ps; rfl
  | cons page rest ih =>
    intro n text ps
    have hfp : filterPage page = ⟨page.width, page.height,
        page.paragraphs.map filterParagraph⟩ := rfl
    show ((hocrParagraphsPage n (filterPage page).width (filterPage page).height text
        (ps.map filterParagraph) (filterPage page).paragraphs).1 ++
          hocrParagraphsGo (n + 1) _ _ (rest.map filterPage)).map tupleData = _
    rw [hfp]
    obtain ⟨h1, h2, h3⟩ := page_filter_proj n page.width page.height page.paragraphs text ps
    show ((hocrParagraphsPage n page.width page.height text (ps.map filterParagraph)
        (page.paragraphs.map filterParagraph)).1 ++
          hocrParagraphsGo (n + 1)
            (hocrParagraphsPage n page.width page.height text (ps.map filterParagraph)
              (page.paragraphs.map filterParagraph)).2.1
            (hocrParagraphsPage n page.width page.height text (ps.map filterParagraph)
              (page.paragraphs.map filterParagraph)).2.2
            (rest.map filterPage)).map tupleData =
      ((hocrParagraphsPage n page.width page.height text ps page.paragraphs).1 ++
        hocrParagraphsGo (n + 1)
          (hocrParagraphsPage n page.width page.height text ps page.paragraphs).2.1
          (hocrParagraphsPage n page.width page.height text ps page.paragraphs).2.2
          rest).map tupleData
    rw [List.map_append, List.map_append, h1, h2, h3, ih]

/-- C4: no output is built from a word below the confidence threshold:
removing all such words changes neither `hocr_page_text`, nor
`hocr_paragraph_text`, nor `get_hocr_words`, nor the text and page data
of any tuple emitted by `hocr_paragraphs`; and every word returned by
`get_hocr_words` passed the filter. -/
theorem C4_low_confidence_never_in_output (pg : Page) (p : Paragraph)
    (pages : List Page) :
    hocr_page_text (filterPage pg) = hocr_page_text pg ∧
    hocr_paragraph_text (filterParagraph p) = hocr_paragraph_text p ∧
    get_hocr_words (filterParagraph p) = get_hocr_words p ∧
    (∀ w ∈ get_hocr_words p, wordPasses w = true) ∧
    (hocr_paragraphs (pages.map filterPage)).map tupleData =
      (hocr_paragraphs pages).map tupleData := by
  refine ⟨hocr_page_text_filter pg, paragraph_text_filter p,
    get_hocr_words_filter p, get_hocr_words_passes p, ?_⟩
  have := go_filter_proj pages 0 "" []
  simpa [hocr_paragraphs] using this

/-! Helper lemmas for the emission structure of `hocr_paragraphs`. -/

lemma suffix_within {α : Type} {l₁ l₂ : List α} (h : l₁ <:+ l₂) : l₁ <:+: l₂ := by
  obtain ⟨pre, hp⟩ := h
  exact ⟨pre, [], by simp [hp]⟩

lemma page_emit_char (n w h : Nat) (l : List Paragraph) :
    ∀ (text : String) (ps : List Paragraph),
      (∀ q ∈ ps, (hocr_paragraph_text q).2 = false) →
      (∀ t ∈ (hocrParagraphsPage n w h text ps l).1, ∃ pend cur,
        (pend ++ [cur]) <:+: (ps ++ l) ∧
        (∀ q ∈ pend, (hocr_paragraph_text q).2 = false) ∧
        (hocr_paragraph_text cur).2 = true ∧
        t.2.1 = (hocr_paragraph_text cur).1 ∧
        t.1.lines = (pend.map Paragraph.lines).flatten ++ cur.lines) ∧
      ((hocrParagraphsPage n w h text ps l).2.2 <:+ (ps ++ l)) ∧
      (∀ q ∈ (hocrParagraphsPage n w h text ps l).2.2,
        (hocr_paragraph_text q).2 = false) := by
  induction l with
  | nil =>
    intro text ps hps
    refine ⟨?_, ?_, ?_⟩
    · intro t ht
      simp [hocrParagraphsPage] at ht
    · show ps <:+ ps ++ []
      rw [List.append_nil]
    · intro q hq
      exact hps q hq
  | cons para rest ih =>
    intro text ps hps
    cases hok : (hocr_paragraph_text para).2 with
    | true =>
      rw [page_eq_cons_true n w h text ps rest hok]
      obtain ⟨ih1, ih2, ih3⟩ := ih "" [] (by intro q hq; simp at hq)
      refine ⟨?_, ?_, ih3⟩
      · intro t ht
        rcases List.mem_cons.mp ht with rfl | ht
        · refine ⟨ps, para, ⟨[], rest, by simp⟩, hps, hok, rfl, ?_⟩
          by_cases hps0 : ps = []
          · subst hps0
            simp
          · rw [if_neg hps0]
            simp [mergePending]
        · obtain ⟨pend, cur, hinf, hpend, hcur, htext, hlines⟩ := ih1 t ht
          refine ⟨pend, cur, ?_, hpend, hcur, htext, hlines⟩
          have hsub : ([] ++ rest : List Paragraph) <:+ ps ++ para :: rest :=
            ⟨ps ++ [para], by simp⟩
          exact hinf.trans (suffix_within hsub)
      · have hsub : ([] ++ rest : List Paragraph) <:+ ps ++ para :: rest :=
          ⟨ps ++ [para], by simp⟩
        exact ih2.trans hsub
    | false =>
      rw [page_eq_cons_false n w h text ps rest hok]
      have hps' : ∀ q ∈ ps ++ [para], (hocr_paragraph_text q).2 = false := by
        intro q hq
        rcases List.mem_append.mp hq with hq | hq
        · exact hps q hq
        · rw [List.mem_singleton.mp hq]
          exact hok
      obtain ⟨ih1, ih2, ih3⟩ := ih (text ++ (hocr_paragraph_text para).1)
        (ps ++ [para]) hps'
      have hre : (ps ++ [para]) ++ rest = ps ++ para :: rest := by simp
      rw [hre] at ih1 ih2
      exact ⟨ih1, ih2, ih3⟩

lemma go_emit_char (pages : List Page) :
    ∀ (n : Nat) (text : String) (ps : List Paragraph),
      (∀ q ∈ ps, (hocr_paragraph_text q).2 = false) →
      ∀ t ∈ hocrParagraphsGo n text ps pages, ∃ pend cur,
        (pend ++ [cur]) <:+: (ps ++ (pages.map Page.paragraphs).flatten) ∧
        (∀ q ∈ pend, (hocr_paragraph_text q).2 = false) ∧
        (hocr_paragraph_text cur).2 = true ∧
        t.2.1 = (hocr_paragraph_text cur).1 ∧
        t.1.lines = (pend.map Paragraph.lines).flatten ++ cur.lines := by
  induction pages with
  | nil =>
    intro n text ps _ t ht
    simp [hocrParagraphsGo] at ht
  | cons page rest ih =>
    intro n text ps hps t ht
    obtain ⟨p1, p2, p3⟩ := page_emit_char n page.width page.height
      page.paragraphs text ps hps
    have hflat : ((page :: rest).map Page.paragraphs).flatten =
        page.paragraphs ++ (rest.map Page.paragraphs).flatten := by
      simp
    rcases List.mem_append.mp ht with ht | ht
    · obtain ⟨pend, cur, hinf, hpend, hcur, htext, hlines⟩ := p1 t ht
      refine ⟨pend, cur, ?_, hpend, hcur, htext, hlines⟩
      rw [hflat, ← List.append_assoc]
      exact hinf.trans (⟨[], (rest.map Page.paragraphs).flatten, by simp⟩ :
        (ps ++ page.paragraphs) <:+: (ps ++ page.paragraphs) ++
          (rest.map Page.paragraphs).flatten)
    · obtain ⟨pend, cur, hinf, hpend, hcur, htext, hlines⟩ :=
        ih (n + 1) _ _ p3 t ht
      refine ⟨pend, cur, ?_, hpend, hcur, htext, hlines⟩
      obtain ⟨pre, hpre⟩ := p2
      have hsuf : (hocrParagraphsPage n page.width page.height text ps
            page.paragraphs).2.2 ++ (rest.map Page.paragraphs).flatten <:+
          ps ++ ((page :: rest).map Page.paragraphs).flatten := by
        refine ⟨pre, ?_⟩
        rw [hflat, ← List.append_assoc, ← List.append_assoc, hpre]
      exact hinf.trans (suffix_within hsuf)

/-- C8: every tuple emitted by `hocr_paragraphs` carries a paragraph
whose lines are the in-order concatenation of the lines of the absorbed
pending (zero-content) paragraphs followed by the current
content-bearing paragraph's lines, where those source paragraphs form a
contiguous run of the document's paragraph sequence: no line is
reordered, duplicated or dropped within the merge. -/
theorem C8_merged_lines_are_pending_then_current (pages : List Page) :
    ∀ t ∈ hocr_paragraphs pages, ∃ pend cur,
      (pend ++ [cur]) <:+: (pages.map Page.paragraphs).flatten ∧
      (∀ q ∈ pend, (hocr_paragraph_text q).2 = false) ∧
      (hocr_paragraph_text cur).2 = true ∧
      t.2.1 = (hocr_paragraph_text cur).1 ∧
      t.1.lines = (pend.map Paragraph.lines).flatten ++ cur.lines := by
  intro t ht
  have h := go_emit_char pages 0 "" [] (by intro q hq; simp at hq) t ht
  simpa using h

/-- C8 witness: the merged tuple of the Hello/World fixture decomposes
as pending P2 followed by current P3. -/
theorem C8_merged_lines_are_pending_then_current_witness :
    ∃ pend cur,
      (pend ++ [cur]) <:+: (helloWorldDoc.map Page.paragraphs).flatten ∧
      (∀ q ∈ pend, (hocr_paragraph_text q).2 = false) ∧
      (hocr_paragraph_text cur).2 = true ∧
      ((⟨P2.lines ++ P3.lines⟩ : Paragraph), "World ", 0, 1000, 1500).2.1 =
        (hocr_paragraph_text cur).1 ∧
      ((⟨P2.lines ++ P3.lines⟩ : Paragraph), "World ", 0, 1000,
        1500).1.lines = (pend.map Paragraph.lines).flatten ++ cur.lines :=
  C8_merged_lines_are_pending_then_current helloWorldDoc
    (⟨P2.lines ++ P3.lines⟩, "World ", 0, 1000, 1500) (by decide)

/-! Helper lemmas for the cross-page pending behavior. -/

lemma page_all_zero (n w h : Nat) (l : List Paragraph) :
    ∀ (text : String) (ps : List Paragraph),
      (∀ q ∈ l, (hocr_paragraph_text q).2 = false) →
      hocrParagraphsPage n w h text ps l = ([], (text, ps ++ l)) := by
  induction l with
  | nil =>
    intro text ps _
    simp [hocrParagraphsPage]
  | cons q rest ih =>
    intro text ps hl
    have hq := hl q (List.mem_cons_self q rest)
    rw [page_eq_cons_false n w h text ps rest hq]
    rw [paragraph_text_false_empty q hq, String.append_empty]
    rw [ih text (ps ++ [q]) (fun r hr => hl r (List.mem_cons_of_mem q hr))]
    simp

lemma go_mid_all_zero (mid : List Page) :
    ∀ (n : Nat) (ps : List Paragraph) (tailPages : List Page),
      (∀ pg ∈ mid, ∀ q ∈ pg.paragraphs, (hocr_paragraph_text q).2 = false) →
      hocrParagraphsGo n "" ps (mid ++ tailPages) =
        hocrParagraphsGo (n + mid.length) ""
          (ps ++ (mid.map Page.paragraphs).flatten) tailPages := by
  induction mid with
  | nil =>
    intro n ps tailPages _
    simp
  | cons pg rest ih =>
    intro n ps tailPages hmid
    have hpg : ∀ q ∈ pg.paragraphs, (hocr_paragraph_text q).2 = false :=
      hmid pg (List.mem_cons_self pg rest)
    show (hocrParagraphsPage n pg.width pg.height "" ps pg.paragraphs).1 ++
        hocrParagraphsGo (n + 1)
          (hocrParagraphsPage n pg.width pg.height "" ps pg.paragraphs).2.1
          (hocrParagraphsPage n pg.width pg.height "" ps pg.paragraphs).2.2
          (rest ++ tailPages) = _
    rw [page_all_zero n pg.width pg.height pg.paragraphs "" ps hpg]
    rw [List.nil_append]
    rw [ih (n + 1) (ps ++ pg.paragraphs) tailPages
      (fun p hp => hmid p (List.mem_cons_of_mem pg hp))]
    have harith : n + 1 + rest.length = n + (rest.length + 1) := by omega
    rw [List.append_assoc, harith]
    simp only [List.length_cons, List.map_cons, List.flatten_cons]

/-- C10: a zero-content paragraph left pending at the end of one page is
absorbed into the first content-bearing paragraph of a later page, and
the emitted tuple carries the page index and dimensions of the
content-bearing paragraph's page — not those of the pages the pending
paragraphs came from: over any run of intermediate all-zero-content
pages, the first emission merges the pending paragraphs with the new
page's content paragraph under the new page's number, width and
height. -/
theorem C10_pending_crosses_page_boundaries (w0 h0 w1 h1 : Nat)
    (z c : Paragraph) (mid : List Page) (rest : List Paragraph)
    (hz : (hocr_paragraph_text z).2 = false)
    (hmid : ∀ pg ∈ mid, ∀ q ∈ pg.paragraphs, (hocr_paragraph_text q).2 = false)
    (hc : (hocr_paragraph_text c).2 = true) :
    (hocr_paragraphs
        (⟨w0, h0, [z]⟩ :: (mid ++ [⟨w1, h1, c :: rest⟩]))).head? =
      some (mergePending (z :: (mid.map Page.paragraphs).flatten) c,
        (hocr_paragraph_text c).1, mid.length + 1, w1, h1) := by
  show ((hocrParagraphsPage 0 w0 h0 "" [] [z]).1 ++
      hocrParagraphsGo 1 (hocrParagraphsPage 0 w0 h0 "" [] [z]).2.1
        (hocrParagraphsPage 0 w0 h0 "" [] [z]).2.2
        (mid ++ [⟨w1, h1, c :: rest⟩])).head? = _
  rw [page_all_zero 0 w0 h0 [z] "" []
    (fun q hq => by rw [List.mem_singleton.mp hq]; exact hz)]
  rw [List.nil_append, List.nil_append]
  rw [go_mid_all_zero mid 1 [z] [⟨w1, h1, c :: rest⟩] hmid]
  show ((hocrParagraphsPage (1 + mid.length) w1 h1 ""
      ([z] ++ (mid.map Page.paragraphs).flatten) (c :: rest)).1 ++
      hocrParagraphsGo (1 + mid.length + 1) _ _ []).head? = _
  rw [page_eq_cons_true (1 + mid.length) w1 h1 ""
    ([z] ++ (mid.map Page.paragraphs).flatten) rest hc]
  rw [if_neg (by simp)]
  show (((mergePending ([z] ++ (mid.map Page.paragraphs).flatten) c,
      (hocr_paragraph_text c).1, 1 + mid.length, w1, h1) ::
      (hocrParagraphsPage (1 + mid.length) w1 h1 "" [] rest).1) ++
      hocrParagraphsGo (1 + mid.length + 1) _ _ []).head? = _
  rw [List.cons_append, List.head?_cons]
  rw [List.singleton_append, Nat.add_comm 1 mid.length]

/-- C10 witness: a pending paragraph on page 0 crosses an empty middle
page and is merged on page 2 under page 2's index and dimensions. -/
theorem C10_pending_crosses_page_boundaries_witness :
    (hocr_paragraphs
        (⟨1, 2, [zPend]⟩ :: (([⟨7, 8, []⟩] : List Page) ++
          [⟨3, 4, [cMain]⟩]))).head? =
      some (mergePending
          (zPend :: (([⟨7, 8, []⟩] : List Page).map Page.paragraphs).flatten)
          cMain,
        (hocr_paragraph_text cMain).1,
        ([⟨7, 8, []⟩] : List Page).length + 1, 3, 4) :=
  C10_pending_crosses_page_boundaries 1 2 3 4 zPend cMain
    ([⟨7, 8, []⟩] : List Page) [] (by decide)
    (by intro pg hpg q hq; rw [List.mem_singleton.mp hpg] at hq; simp at hq)
    (by decide)

/-- C4 witness: dropping the below-threshold word of the Hello/World
fixture changes no text output, and the surviving word `Hello` passes
the filter. -/
theorem C4_low_confidence_never_in_output_witness :
    hocr_page_text (filterPage ⟨1000, 1500, [P1, P2, P3]⟩) =
      hocr_page_text ⟨1000, 1500, [P1, P2, P3]⟩ ∧
    wordPasses ⟨"Hello", 90⟩ = true ∧
    (hocr_paragraphs (helloWorldDoc.map filterPage)).map tupleData =
      (hocr_paragraphs helloWorldDoc).map tupleData :=
  ⟨(C4_low_confidence_never_in_output ⟨1000, 1500, [P1, P2, P3]⟩ P1 helloWorldDoc).1,
   (C4_low_confidence_never_in_output ⟨1000, 1500, [P1, P2, P3]⟩ P1
      helloWorldDoc).2.2.2.1 ⟨"Hello", 90⟩ (by decide),
   (C4_low_confidence_never_in_output ⟨1000, 1500, [P1, P2, P3]⟩ P1
      helloWorldDoc).2.2.2.2⟩

end HocrText
